import Mathlib

/-!
Verification of the Reference Collection Controller of the
`sanity-advanced-reference-array` widget (`src/AdvancedRefArray.tsx`).

The component manages an ordered array of Sanity references
`{_type, _key, _ref, _weak}`.  The embedding below translates, function by
function, the pure logic of:

* `searchForItems` — GROQ text query with result limit and the
  "hide already added" filter;
* `addAllReferences` / `addSingleReference` — commits of new references
  with duplicate protection;
* `checkAlreadySorted`, `getSortData`, `sortAllReferences` — the
  derived-direction sort toggle over the dereferenced documents.

JavaScript strings are Lean `String`; machine floats do not occur in the
claims (the field values compared are integers, strings or null), so
numbers are modelled as `Int`.  `Array.prototype.sort` is required by the
ECMAScript specification to be stable; it is modelled as a stable
insertion sort.  `Math.random()`-generated keys are modelled by an
explicit key-supply function `kg : Nat → String`.
-/

/-- A JavaScript field value as it appears in the sort comparators:
`jnull` covers both `null` and `undefined` (the code only tests
`value == null`, which identifies the two). -/
inductive JVal where
  | jnull : JVal
  | jnum : Int → JVal
  | jstr : String → JVal
deriving DecidableEq

/-- Value of a decimal digit string (assumes all characters are digits). -/
def digitsVal (s : List Char) : Nat :=
  s.foldl (fun acc c => acc * 10 + (c.toNat - 48)) 0

/-- JavaScript character test used by `String.prototype.trim`
(restricted to the common whitespace characters). -/
def jsWhite (c : Char) : Bool := c = ' ' ∨ c = '\t' ∨ c = '\n' ∨ c = '\r'

/-- JavaScript `String.prototype.trim`. -/
def jsTrim (s : String) : String :=
  ⟨((s.data.dropWhile jsWhite).reverse.dropWhile jsWhite).reverse⟩

/-- JavaScript `ToNumber` on a string (integer literals; a non-numeric
string is NaN, returned as `none`; the empty/blank string is `0`). -/
def strToNumber (s : String) : Option Int :=
  match (jsTrim s).data with
  | [] => some 0
  | '-' :: rest =>
      if rest ≠ [] ∧ rest.all Char.isDigit then some (-(digitsVal rest : Int)) else none
  | l => if l.all Char.isDigit then some ((digitsVal l : Int)) else none

/-- JavaScript `ToNumber` on a field value (`null` coerces to `0`). -/
def jsToNum : JVal → Option Int
  | JVal.jnull => some 0
  | JVal.jnum n => some n
  | JVal.jstr s => strToNumber s

/-- JavaScript `<` on field values: string/string is lexicographic,
otherwise both sides are coerced to numbers and any NaN makes the
comparison false. -/
def jsLt (a b : JVal) : Bool :=
  match a, b with
  | JVal.jstr x, JVal.jstr y => decide (x < y)
  | _, _ =>
      match jsToNum a, jsToNum b with
      | some x, some y => decide (x < y)
      | _, _ => false

/-- The comparator body shared by `checkAlreadySorted` (with `dir = 1`)
and `sortAllReferences` (with `dir = 1` or `-1`): null/undefined is
handled before the direction is applied, strings go through
`localeCompare` (the parameter `lc`), anything else through JavaScript
`<`. -/
def cmpVal (lc : String → String → Int) (dir : Int) (a b : JVal) : Int :=
  if a = JVal.jnull ∧ b = JVal.jnull then 0
  else if a = JVal.jnull then 1
  else if b = JVal.jnull then -1
  else
    match a, b with
    | JVal.jstr x, JVal.jstr y => dir * lc x y
    | _, _ => if jsLt a b then dir * (-1) else if jsLt b a then dir * 1 else 0

/-- An expanded (dereferenced) document: its `_id` and its fields. -/
structure SDoc where
  _id : String
  fields : List (String × JVal)
deriving DecidableEq

/-- JavaScript property access `doc[field]`: a missing field is
`undefined`, which the comparators treat exactly like `null`. -/
def getField (d : SDoc) (f : String) : JVal :=
  (d.fields.lookup f).getD JVal.jnull

/-- The document comparator `(a, b) => ...` of the component, selected
field `f`, direction `dir`. -/
def cmpDocs (lc : String → String → Int) (dir : Int) (f : String) (a b : SDoc) : Int :=
  cmpVal lc dir (getField a f) (getField b f)

/-- Stable insertion used to model `Array.prototype.sort`: the new
element goes before the first element it does not strictly follow, so
tied elements keep their original relative order. -/
def insertCmp (cmp : α → α → Int) (x : α) : List α → List α
  | [] => [x]
  | y :: ys => if cmp x y ≤ 0 then x :: y :: ys else y :: insertCmp cmp x ys

/-- Stable sort by a three-way comparator (model of the stable
`Array.prototype.sort`). -/
def sortCmp (cmp : α → α → Int) (l : List α) : List α :=
  l.foldr (insertCmp cmp) []

/-- A reference array entry `{_type, _key, _ref, _weak}`. -/
structure SRef where
  _type : String
  _key : String
  _ref : String
  _weak : Bool
deriving DecidableEq

/-- A search result row `{_id, title}`. -/
structure SResult where
  _id : String
  title : String
deriving DecidableEq

/-- A document in the store as seen by the search query. -/
structure StoreDoc where
  _id : String
  _type : String
  title : String
deriving DecidableEq

/-- ASCII lower-casing of a character (for the case-insensitive GROQ
`match`). -/
def lcChar (c : Char) : Char :=
  if 65 ≤ c.toNat ∧ c.toNat ≤ 90 then Char.ofNat (c.toNat + 32) else c

/-- Split a lower-cased string into space-separated words. -/
def splitWordsAux : List Char → List Char → List (List Char)
  | cur, [] => [cur.reverse]
  | cur, c :: rest =>
      if c = ' ' then cur.reverse :: splitWordsAux [] rest
      else splitWordsAux (c :: cur) rest

/-- Lower-cased words of a string. -/
def lcWords (s : String) : List (List Char) :=
  splitWordsAux [] (s.data.map lcChar)

/-- Leading-segment test on character lists. -/
def listLead : List Char → List Char → Bool
  | [], _ => true
  | _, [] => false
  | a :: as', b :: bs' => a = b ∧ listLead as' bs'

/-- GROQ `title match "<text>*"`: case-insensitive word-start match of
the search text against the title. -/
def titleMatches (text title : String) : Bool :=
  (lcWords title).any (fun w => listLead (text.data.map lcChar) w)

/-- The smart filter of `searchForItems`: when `filterExisting` is on
and the reference array is non-empty, drop every result whose `_id` is
already referenced. -/
def filterExistingResults (filterExisting : Bool) (value : List SRef)
    (items : List SResult) : List SResult :=
  if filterExisting ∧ ¬ value.isEmpty then
    items.filter (fun item => ¬ value.any (fun r => r._ref == item._id))
  else items

/-- Outcome of one `searchForItems` call: whether a query was issued to
the store, and the results handed to `setFindData`. -/
structure QueryOutcome where
  queried : Bool
  results : List SResult
deriving DecidableEq

/-- `searchForItems` of `AdvancedRefArray.tsx`: an empty/whitespace
search value (or no acceptable schema types) short-circuits without a
query; otherwise the store is queried with the type and title filter and
the `[0...maxSearchResults]` slice, and the results are smart-filtered
against the live reference array. -/
def searchForItems (store : List StoreDoc) (schemaTypes : List String)
    (filterExisting : Bool) (value : List SRef) (maxSearchResults : Nat)
    (searchValue : String) : QueryOutcome :=
  if jsTrim searchValue = "" ∨ schemaTypes.isEmpty then ⟨false, []⟩
  else
    let fetched :=
      ((store.filter
          (fun d => schemaTypes.contains d._type ∧ titleMatches searchValue d.title)).take
        maxSearchResults).map (fun d => SResult.mk d._id d.title)
    ⟨true, filterExistingResults filterExisting value fetched⟩

/-- The configurable props of the component (the subset the claims
mention), each `none` when the user did not supply it. -/
structure RefArrayProps where
  filterExisting : Option Bool
  maxSearchResults : Option Nat
deriving DecidableEq

/-- The destructuring default `maxSearchResults = 50`. -/
def resolvedMaxSearchResults (p : RefArrayProps) : Nat :=
  p.maxSearchResults.getD 50

/-- The destructuring default `filterExisting = true`. -/
def resolvedFilterExisting (p : RefArrayProps) : Bool :=
  p.filterExisting.getD true

/-- The references created by `addAllReferences` from the current search
results: `_type: 'reference'`, a fresh key per entry (the `Math.random`
key stream is modelled by `kg`, consumed from index `n`), `_ref` the
result id, `_weak: true`. -/
def mkNewRefs (kg : Nat → String) (n : Nat) (items : List SResult) : List SRef :=
  items.enum.map (fun p => (⟨"reference", kg (n + p.1), p.2._id, true⟩ : SRef))

/-- `newValues.filter((ref, index, self) => self.findIndex(t => t._ref === ref._ref) === index)`:
keep an entry iff no earlier entry has the same `_ref`. -/
def dedupGo : List String → List SRef → List SRef
  | _, [] => []
  | seen, r :: rs =>
      if r._ref ∈ seen then dedupGo seen rs
      else r :: dedupGo (seen ++ [r._ref]) rs

/-- Duplicate removal by `_ref`, first occurrence wins. -/
def dedupByRef (l : List SRef) : List SRef := dedupGo [] l

/-- `addAllReferences`: no-op when there are no search results,
otherwise append one new reference per result and run the duplicate
safety filter before committing. -/
def addAllReferences (kg : Nat → String) (n : Nat) (value : List SRef)
    (findData : List SResult) : List SRef :=
  if findData.isEmpty then value
  else dedupByRef (value ++ mkNewRefs kg n findData)

/-- `addSingleReference`: no-op on a blank id (`!item?._id`) or when the
id is already referenced, otherwise append one new weak reference. -/
def addSingleReference (value : List SRef) (item : SResult) (key : String) : List SRef :=
  if item._id = "" then value
  else if value.any (fun v => v._ref == item._id) then value
  else value ++ [(⟨"reference", key, item._id, true⟩ : SRef)]

/-- One user add action: bulk add of the current results, or a single
click-to-add. -/
inductive AddOp where
  | bulk : List SResult → AddOp
  | single : SResult → AddOp

/-- Apply one add action, consuming fresh keys from index `n`. -/
def opStep (kg : Nat → String) (n : Nat) (value : List SRef) : AddOp → Nat × List SRef
  | AddOp.bulk items => (n + items.length, addAllReferences kg n value items)
  | AddOp.single item => (n + 1, addSingleReference value item (kg n))

/-- Run a sequence of add actions. -/
def runOpsAux (kg : Nat → String) : Nat → List SRef → List AddOp → List SRef
  | _, value, [] => value
  | n, value, op :: rest =>
      runOpsAux kg (opStep kg n value op).1 (opStep kg n value op).2 rest

/-- Run a sequence of add actions from a starting reference array. -/
def runOps (kg : Nat → String) (value : List SRef) (ops : List AddOp) : List SRef :=
  runOpsAux kg 0 value ops

/-- First-occurrence filter on a list of ids, against ids already seen. -/
def strGo : List String → List String → List String
  | _, [] => []
  | seen, i :: rest =>
      if i ∈ seen then strGo seen rest
      else i :: strGo (seen ++ [i]) rest

/-- The ids a bulk add actually appends: the supplied ids, in order,
with ids already present and repeated ids dropped. -/
def newIds (existing ids : List String) : List String := strGo existing ids

/-- The reference-array invariant: no two entries share a `_ref`. -/
def noDupRefs (l : List SRef) : Prop := (l.map SRef._ref).Nodup

instance (l : List SRef) : Decidable (noDupRefs l) := by
  unfold noDupRefs
  infer_instance

/-- `checkAlreadySorted`: an empty expansion returns without reporting
anything (the `alreadySorted` flag is left as it was); otherwise the
flag becomes whether the ascending stable sort leaves the expanded
documents unchanged (the `JSON.stringify` comparison is structural
equality). -/
def checkAlreadySorted (lc : String → String → Int) (f : String)
    (docs : List SDoc) : Option Bool :=
  if docs.isEmpty then none
  else some (decide (sortCmp (cmpDocs lc 1 f) docs = docs))

/-- Outcome of one `sortAllReferences` call: an early return with no
commit and no error, an error surfaced via `setError` with no commit, or
a commit of the re-ordered array via `onChange(set(...))`. -/
inductive SortOutcome where
  | noop : SortOutcome
  | err : String → SortOutcome
  | commit : List SRef → SortOutcome
deriving DecidableEq

/-- The error message surfaced when the expanded documents are missing. -/
def msgNoSortData : String := "No data available for sorting."

/-- `refMap.get(id)` where `refMap` was built by `refMap.set(ref._ref, ref)`
over the current references: the last entry with the id wins. -/
def findRefLast : List SRef → String → Option SRef
  | [], _ => none
  | r :: rs, i =>
      match findRefLast rs i with
      | some x => some x
      | none => if r._ref == i then some r else none

/-- `sortedRefs.map(doc => refMap.get(doc._id)).filter(Boolean)`. -/
def organize (refs : List SRef) (docs : List SDoc) : List SRef :=
  docs.filterMap (fun d => findRefLast refs d._id)

/-- `sortAllReferences`: early return when the array or the selected
field is empty; an error (and no commit) when the expanded documents are
missing; otherwise the expanded documents are stably sorted with
direction `-1` when `alreadySorted` holds and `1` otherwise, and the
references are committed in that order. -/
def sortAllReferences (lc : String → String → Int) (f : String)
    (value : List SRef) (docs : List SDoc) (alreadySorted : Bool) : SortOutcome :=
  if value.isEmpty ∨ f = "" then SortOutcome.noop
  else if docs.isEmpty then SortOutcome.err msgNoSortData
  else
    SortOutcome.commit
      (organize value (sortCmp (cmpDocs lc (if alreadySorted then -1 else 1) f) docs))

/-- Modelled from the spec (§4.4 `compare`), on field values: the
ascending comparator — null/undefined sorts last, strings compare by
the locale ordering `lc`, other values by the native ordering. -/
def specAscVal (lc : String → String → Int) (a b : JVal) : Int :=
  if a = JVal.jnull ∧ b = JVal.jnull then 0
  else if a = JVal.jnull then 1
  else if b = JVal.jnull then -1
  else
    match a, b with
    | JVal.jstr x, JVal.jstr y => lc x y
    | _, _ => if jsLt a b then -1 else if jsLt b a then 1 else 0

/-- Modelled from the spec (§4.4 `compare`): the ascending comparator on
documents, selected field `f`. -/
def specAscCmp (lc : String → String → Int) (f : String) (a b : SDoc) : Int :=
  specAscVal lc (getField a f) (getField b f)

/-- Modelled from the spec (§4.4 toggle semantics), on field values: the
descending comparator — null/undefined still sorts last, and otherwise
the ascending comparator is reversed. -/
def specDescVal (lc : String → String → Int) (a b : JVal) : Int :=
  if a = JVal.jnull ∧ b = JVal.jnull then 0
  else if a = JVal.jnull then 1
  else if b = JVal.jnull then -1
  else -(specAscVal lc a b)

/-- Modelled from the spec (§4.4 toggle semantics): the descending
comparator on documents, selected field `f`. -/
def specDescCmp (lc : String → String → Int) (f : String) (a b : SDoc) : Int :=
  specDescVal lc (getField a f) (getField b f)

/-- The documents the component dereferences for sorting: the GROQ
projection `field[]->` resolves the references in array order; `docOf`
is the (unchanged) document store. -/
def deref (docOf : String → SDoc) (refs : List SRef) : List SDoc :=
  refs.map (fun r => docOf r._ref)

/-- One full user sort interaction: the `alreadySorted` flag is derived
from a fresh expansion of the current array (initial value `false` when
the check reports nothing), then `sortAllReferences` runs and its
commit, if any, replaces the array. -/
def sortStep (lc : String → String → Int) (f : String) (docOf : String → SDoc)
    (refs : List SRef) : List SRef :=
  let docs := deref docOf refs
  let flag := (checkAlreadySorted lc f docs).getD false
  match sortAllReferences lc f refs docs flag with
  | SortOutcome.commit newRefs => newRefs
  | _ => refs

/-! ### Concrete instances used in scenarios, witnesses and counterexamples -/

/-- A trivial locale comparator (every string collates equal). -/
def lcZero : String → String → Int := fun _ _ => 0

/-- The sort field of the spec scenario. -/
def priceField : String := "price"

/-- The schema types of the search scenario. -/
def productTypes : List String := ["product"]

/-- The search text of the search scenario. -/
def widText : String := "wid"

/-- A whitespace-only search text. -/
def wsBlank : String := "  "

/-- A concrete fresh key. -/
def keyK : String := "kx"

/-- A concrete search result. -/
def itemB : SResult := ⟨"b", "B"⟩

/-- A concrete injective key supply (stands for the `Math.random` keys). -/
def kgw (n : Nat) : String := ⟨List.replicate n 'k'⟩

/-- Reference to document `p1`. -/
def refP1 : SRef := ⟨"reference", "k1", "p1", true⟩

/-- Reference to document `p2`. -/
def refP2 : SRef := ⟨"reference", "k2", "p2", true⟩

/-- The store of the search scenario. -/
def storeW : List StoreDoc := [⟨"p2", "product", "Widget"⟩, ⟨"p3", "product", "Widgetron"⟩]

/-- Scenario document `a` with `price: 30`. -/
def docA : SDoc := ⟨"a", [("price", JVal.jnum 30)]⟩

/-- Scenario document `b` with `price: 10`. -/
def docB : SDoc := ⟨"b", [("price", JVal.jnum 10)]⟩

/-- Scenario document `c` with `price: null`. -/
def docC : SDoc := ⟨"c", [("price", JVal.jnull)]⟩

/-- Scenario document `d` with `price: 20`. -/
def docD : SDoc := ⟨"d", [("price", JVal.jnum 20)]⟩

/-- Reference to scenario document `a`. -/
def refA : SRef := ⟨"reference", "ka", "a", true⟩

/-- Reference to scenario document `b`. -/
def refB : SRef := ⟨"reference", "kb", "b", true⟩

/-- Reference to scenario document `c`. -/
def refC : SRef := ⟨"reference", "kc", "c", true⟩

/-- Reference to scenario document `d`. -/
def refD : SRef := ⟨"reference", "kd", "d", true⟩

/-- A second reference pointing at document `a` (a duplicate `_ref`). -/
def refAdupA : SRef := ⟨"reference", "k9", "a", true⟩

/-- The document store of the sort scenarios. -/
def docOf0 : String → SDoc := fun i =>
  if i = "a" then docA else if i = "b" then docB else if i = "d" then docD else ⟨i, []⟩

/-! ### Claim theorems: search and error handling -/

/-- c2: with the hide-already-added option enabled, every search result
whose id equals the `_ref` of some current reference is dropped before
results are exposed; in particular for references `[p1, p2]` and raw
results `[p2: Widget, p3: Widgetron]`, the displayed results are exactly
`[p3]`. -/
theorem c2_hide_existing :
    (∀ (value : List SRef) (items : List SResult),
        (filterExistingResults true value items).all
          (fun item => ¬ value.any (fun r => r._ref == item._id)) = true) ∧
    searchForItems storeW productTypes true [refP1, refP2] 50 widText =
      ⟨true, [⟨"p3", "Widgetron"⟩]⟩ := by
  constructor
  · intro value items
    unfold filterExistingResults
    split
    · exact List.all_eq_true.2 (fun x hx => (List.mem_filter.1 hx).2)
    · rename_i hcond
      have hv : value = [] := by
        rcases Decidable.not_and_iff_or_not.1 hcond with h | h
        · simp at h
        · simpa [List.isEmpty_iff] using h
      subst hv
      simp
  · decide

/-- c7: an empty or whitespace-only search text returns an empty result
set without issuing any query to the document store. -/
theorem c7_blank_search (store : List StoreDoc) (schemaTypes : List String)
    (filterExisting : Bool) (value : List SRef) (maxSearchResults : Nat)
    (searchValue : String) (h : jsTrim searchValue = "") :
    searchForItems store schemaTypes filterExisting value maxSearchResults searchValue =
      ⟨false, []⟩ := by
  unfold searchForItems
  simp [h]

/-- Witness for `c7_blank_search` at the whitespace text `"  "`. -/
theorem c7_blank_search_witness :
    searchForItems storeW productTypes true [] 50 wsBlank = ⟨false, []⟩ :=
  c7_blank_search storeW productTypes true [] 50 wsBlank (by decide)

/-- c8: the results of an issued search never exceed the configured
`maxSearchResults`, whose destructuring default is 50. -/
theorem c8_result_limit (store : List StoreDoc) (schemaTypes : List String)
    (value : List SRef) (searchValue : String) (p : RefArrayProps) :
    (searchForItems store schemaTypes (resolvedFilterExisting p) value
          (resolvedMaxSearchResults p) searchValue).results.length ≤
        resolvedMaxSearchResults p ∧
    (p.maxSearchResults = none → resolvedMaxSearchResults p = 50) := by
  constructor
  · unfold searchForItems
    split
    · simp
    · unfold filterExistingResults
      split
      · refine le_trans (List.length_filter_le _ _) ?_
        simp [List.length_take]
      · simp [List.length_take]
  · intro h
    simp [resolvedMaxSearchResults, h]

/-- Witness for `c8_result_limit` with no configured limit. -/
theorem c8_result_limit_witness :
    (searchForItems storeW productTypes
          (resolvedFilterExisting (RefArrayProps.mk none none)) []
          (resolvedMaxSearchResults (RefArrayProps.mk none none)) widText).results.length ≤
        resolvedMaxSearchResults (RefArrayProps.mk none none) ∧
    resolvedMaxSearchResults (RefArrayProps.mk none none) = 50 :=
  ⟨(c8_result_limit storeW productTypes [] widText (RefArrayProps.mk none none)).1,
   (c8_result_limit storeW productTypes [] widText (RefArrayProps.mk none none)).2 rfl⟩

/-- c6: when the expanded documents cannot be fetched (the fetch helper
returns an empty list, also its failure path), `sortAllReferences`
surfaces an error and makes no commit. -/
theorem c6_no_commit_without_docs (lc : String → String → Int) (f : String)
    (value : List SRef) (flag : Bool) (h1 : ¬ value.isEmpty) (h2 : f ≠ "") :
    sortAllReferences lc f value [] flag = SortOutcome.err msgNoSortData := by
  unfold sortAllReferences
  simp [h1, h2]

/-- Witness for `c6_no_commit_without_docs`. -/
theorem c6_no_commit_without_docs_witness :
    sortAllReferences lcZero priceField [refA] [] false = SortOutcome.err msgNoSortData :=
  c6_no_commit_without_docs lcZero priceField [refA] false (by decide) (by decide)

/-- c9 counterexample: on an empty reference list the already-sorted
check does not report `true` — it returns without reporting anything. -/
theorem c9_counterexample :
    ¬ checkAlreadySorted lcZero priceField [] = some true := by
  unfold checkAlreadySorted
  simp

/-- c9 (amended): the already-sorted check reports `true` for every
singleton list and any field; on the empty list it early-returns without
reporting (the previous flag value stays). -/
theorem c9_small_lists (lc : String → String → Int) (f : String) (d : SDoc) :
    checkAlreadySorted lc f [d] = some true ∧ checkAlreadySorted lc f [] = none := by
  constructor
  · unfold checkAlreadySorted
    simp [sortCmp, insertCmp]
  · rfl

/-! ### Claim theorems: comparator and created references -/

/-- c4: under the sort comparator, for every direction a document whose
selected field is null/undefined orders after every document whose field
is present; two string fields compare through the locale comparator; and
the scenario documents a:30, b:10, c:null ascending-sort to [b, a, c]
and descending-sort to [a, b, c]. -/
theorem c4_comparator_contract :
    (∀ (lc : String → String → Int) (dir : Int) (f : String) (a b : SDoc),
        getField a f ≠ JVal.jnull → getField b f = JVal.jnull →
        cmpDocs lc dir f a b = -1 ∧ cmpDocs lc dir f b a = 1) ∧
    (∀ (lc : String → String → Int) (dir : Int) (f : String) (a b : SDoc) (x y : String),
        getField a f = JVal.jstr x → getField b f = JVal.jstr y →
        cmpDocs lc dir f a b = dir * lc x y) ∧
    (∀ lc : String → String → Int,
        sortAllReferences lc priceField [refA, refB, refC] [docA, docB, docC] false =
          SortOutcome.commit [refB, refA, refC]) ∧
    (∀ lc : String → String → Int,
        sortAllReferences lc priceField [refA, refB, refC] [docA, docB, docC] true =
          SortOutcome.commit [refA, refB, refC]) := by
  refine ⟨?_, ?_, ?_, ?_⟩
  · intro lc dir f a b ha hb
    constructor
    · unfold cmpDocs cmpVal
      simp [ha, hb]
    · unfold cmpDocs cmpVal
      simp [ha, hb]
  · intro lc dir f a b x y hx hy
    unfold cmpDocs cmpVal
    simp [hx, hy]
  · intro lc
    rfl
  · intro lc
    rfl

/-- A string price value. -/
def strX : String := "x"

/-- A second string price value. -/
def strY : String := "y"

/-- A document with a string-valued price. -/
def docS1 : SDoc := ⟨"s1", [("price", JVal.jstr strX)]⟩

/-- A second document with a string-valued price. -/
def docS2 : SDoc := ⟨"s2", [("price", JVal.jstr strY)]⟩

/-- Witness for `c4_comparator_contract`: document a (price 30) against
document c (price null), and two string-valued documents. -/
theorem c4_comparator_contract_witness :
    cmpDocs lcZero 1 priceField docA docC = -1 ∧ cmpDocs lcZero 1 priceField docC docA = 1 ∧
    cmpDocs lcZero 1 priceField docS1 docS2 = 1 * lcZero strX strY :=
  ⟨(c4_comparator_contract.1 lcZero 1 priceField docA docC (by decide) (by decide)).1,
   (c4_comparator_contract.1 lcZero 1 priceField docA docC (by decide) (by decide)).2,
   c4_comparator_contract.2.1 lcZero 1 priceField docS1 docS2
     strX strY (by decide) (by decide)⟩

/-- c10: every reference a bulk add creates carries `_type: 'reference'`,
`_weak: true` and a fresh key per entry (pairwise distinct when the key
supply is injective), and a single add appends exactly one such entry. -/
theorem c10_created_references (kg : Nat → String) (n : Nat) (items : List SResult)
    (value : List SRef) (item : SResult) (key : String)
    (hinj : ∀ i j : Nat, kg i = kg j → i = j) :
    (∀ r ∈ mkNewRefs kg n items, r._type = "reference" ∧ r._weak = true) ∧
    ((mkNewRefs kg n items).map SRef._key).Nodup ∧
    (item._id ≠ "" → value.any (fun v => v._ref == item._id) = false →
      addSingleReference value item key =
        value ++ [(⟨"reference", key, item._id, true⟩ : SRef)]) := by
  refine ⟨?_, ?_, ?_⟩
  · intro r hr
    unfold mkNewRefs at hr
    rcases List.mem_map.1 hr with ⟨p, _, hp⟩
    rw [← hp]
    exact ⟨rfl, rfl⟩
  · have hmap : (mkNewRefs kg n items).map SRef._key =
        (items.enum.map Prod.fst).map (fun i => kg (n + i)) := by
      unfold mkNewRefs
      rw [List.map_map, List.map_map]
      rfl
    rw [hmap, List.enum_map_fst]
    refine List.Nodup.map ?_ (List.nodup_range _)
    intro i j hij
    have := hinj (n + i) (n + j) hij
    omega
  · intro h1 h2
    unfold addSingleReference
    simp [h1, h2]

/-- Witness for `c10_created_references` at the injective key supply
`kgw`. -/
theorem c10_created_references_witness :
    ((mkNewRefs kgw 0 [itemB]).map SRef._key).Nodup ∧
    addSingleReference [] itemB keyK = [] ++ [(⟨"reference", keyK, "b", true⟩ : SRef)] := by
  have hinj : ∀ i j : Nat, kgw i = kgw j → i = j := by
    intro i j h
    have h2 := congrArg (fun s => s.data.length) h
    simpa [kgw] using h2
  exact ⟨(c10_created_references kgw 0 [itemB] [] itemB keyK hinj).2.1,
         (c10_created_references kgw 0 [itemB] [] itemB keyK hinj).2.2 (by decide) (by decide)⟩

/-- c1 counterexample: from a starting list that already holds two
entries with `_ref` "a", a single click-to-add of a fresh document
commits a list that still has two entries with the same `_ref` — the
claim fails for starting lists that violate the uniqueness invariant. -/
theorem c1_counterexample :
    ¬ noDupRefs (runOps kgw [refA, refAdupA] [AddOp.single itemB]) := by decide

/-- c5 counterexample: on the initially unsorted list [a:30, b:10, d:20]
the first sort produces the ascending order and the second the
descending order, not the original order — the round-trip law fails for
unsorted starting lists. -/
theorem c5_counterexample :
    sortStep lcZero priceField docOf0 (sortStep lcZero priceField docOf0 [refA, refB, refD]) ≠
      [refA, refB, refD] := by decide

/-! ### Duplicate-protection lemmas for the add operations -/

/-- The `_ref` ids of a reference list, in order. -/
def refIds (l : List SRef) : List String := l.map SRef._ref

theorem refIds_cons (a : SRef) (l : List SRef) : refIds (a :: l) = a._ref :: refIds l := rfl

theorem dedupGo_append (new : List SRef) :
    ∀ (v : List SRef) (seen : List String), (refIds v).Nodup →
      (∀ r ∈ v, r._ref ∉ seen) →
      dedupGo seen (v ++ new) = v ++ dedupGo (seen ++ refIds v) new := by
  intro v
  induction v with
  | nil => intro seen _ _; simp [refIds]
  | cons a v' ih =>
      intro seen hnd hdisj
      have ha : a._ref ∉ seen := hdisj a (by simp)
      have hnd' : (refIds v').Nodup := by
        rw [refIds_cons] at hnd
        exact (List.nodup_cons.1 hnd).2
      have hhead : a._ref ∉ refIds v' := by
        rw [refIds_cons] at hnd
        exact (List.nodup_cons.1 hnd).1
      have hdisj' : ∀ r ∈ v', r._ref ∉ seen ++ [a._ref] := by
        intro r hr
        rw [List.mem_append]
        push_neg
        refine ⟨hdisj r (by simp [hr]), ?_⟩
        intro hc
        rcases List.mem_singleton.1 hc with he
        exact hhead (he ▸ List.mem_map_of_mem SRef._ref hr)
      show dedupGo seen (a :: (v' ++ new)) = _
      rw [show dedupGo seen (a :: (v' ++ new)) =
            if a._ref ∈ seen then dedupGo seen (v' ++ new)
            else a :: dedupGo (seen ++ [a._ref]) (v' ++ new) from rfl]
      rw [if_neg ha, ih (seen ++ [a._ref]) hnd' hdisj', refIds_cons]
      simp

theorem dedupGo_nodup : ∀ (l : List SRef) (seen : List String),
    (refIds (dedupGo seen l)).Nodup ∧ ∀ r ∈ dedupGo seen l, r._ref ∉ seen := by
  intro l
  induction l with
  | nil => intro seen; simp [dedupGo, refIds]
  | cons a l' ih =>
      intro seen
      by_cases ha : a._ref ∈ seen
      · rw [show dedupGo seen (a :: l') = dedupGo seen l' from by rw [dedupGo, if_pos ha]]
        exact ih seen
      · rw [show dedupGo seen (a :: l') = a :: dedupGo (seen ++ [a._ref]) l' from by
              rw [dedupGo, if_neg ha]]
        constructor
        · rw [refIds_cons, List.nodup_cons]
          refine ⟨?_, (ih (seen ++ [a._ref])).1⟩
          intro hmem
          rcases List.mem_map.1 hmem with ⟨r, hr, he⟩
          have := (ih (seen ++ [a._ref])).2 r hr
          rw [he] at this
          exact this (by simp)
        · intro r hr
          rcases List.mem_cons.1 hr with he | hm
          · rw [he]; exact ha
          · have := (ih (seen ++ [a._ref])).2 r hm
            intro hc
            exact this (by simp [hc])

theorem refIds_dedupGo : ∀ (l : List SRef) (seen : List String),
    refIds (dedupGo seen l) = strGo seen (refIds l) := by
  intro l
  induction l with
  | nil => intro seen; rfl
  | cons a l' ih =>
      intro seen
      by_cases ha : a._ref ∈ seen
      · rw [show dedupGo seen (a :: l') = dedupGo seen l' from by rw [dedupGo, if_pos ha]]
        rw [refIds_cons, show strGo seen (a._ref :: refIds l') = strGo seen (refIds l') from by
              rw [strGo, if_pos ha]]
        exact ih seen
      · rw [show dedupGo seen (a :: l') = a :: dedupGo (seen ++ [a._ref]) l' from by
              rw [dedupGo, if_neg ha]]
        rw [refIds_cons, refIds_cons, show strGo seen (a._ref :: refIds l') =
              a._ref :: strGo (seen ++ [a._ref]) (refIds l') from by rw [strGo, if_neg ha]]
        rw [ih (seen ++ [a._ref])]

theorem refIds_mkNewRefs (kg : Nat → String) (n : Nat) (items : List SResult) :
    refIds (mkNewRefs kg n items) = items.map SResult._id := by
  unfold refIds mkNewRefs
  rw [List.map_map]
  rw [show (SRef._ref ∘ fun p : Nat × SResult =>
        (⟨"reference", kg (n + p.1), p.2._id, true⟩ : SRef)) = (SResult._id ∘ Prod.snd) from rfl]
  rw [← List.map_map, List.enum_map_snd]

theorem addAll_split (kg : Nat → String) (n : Nat) (value : List SRef)
    (items : List SResult) (h : noDupRefs value) :
    addAllReferences kg n value items =
      value ++ dedupGo (refIds value) (mkNewRefs kg n items) := by
  unfold addAllReferences
  by_cases hit : items.isEmpty
  · have : items = [] := by simpa [List.isEmpty_iff] using hit
    subst this
    simp [mkNewRefs, dedupGo]
  · rw [if_neg hit]
    unfold dedupByRef
    rw [dedupGo_append (mkNewRefs kg n items) value [] h (by simp)]
    simp

theorem addAll_nodup (kg : Nat → String) (n : Nat) (value : List SRef)
    (items : List SResult) (h : noDupRefs value) :
    noDupRefs (addAllReferences kg n value items) := by
  rw [addAll_split kg n value items h]
  unfold noDupRefs
  rw [show (value ++ dedupGo (refIds value) (mkNewRefs kg n items)).map SRef._ref =
        refIds value ++ refIds (dedupGo (refIds value) (mkNewRefs kg n items)) from by
      simp [refIds]]
  refine List.Nodup.append h (dedupGo_nodup _ _).1 ?_
  intro x hx hx2
  rcases List.mem_map.1 hx2 with ⟨r, hr, he⟩
  exact (dedupGo_nodup (mkNewRefs kg n items) (refIds value)).2 r hr (he ▸ hx)

theorem addSingle_split (value : List SRef) (item : SResult) (key : String) :
    addSingleReference value item key =
      value ++ (if item._id ≠ "" ∧ item._id ∉ refIds value
          then [(⟨"reference", key, item._id, true⟩ : SRef)] else []) := by
  unfold addSingleReference
  by_cases h1 : item._id = ""
  · simp [h1]
  · by_cases h2 : value.any (fun v => v._ref == item._id)
    · have hmem : item._id ∈ refIds value := by
        rcases List.any_eq_true.1 h2 with ⟨v, hv, hb⟩
        have he : v._ref = item._id := by simpa using hb
        exact he ▸ List.mem_map_of_mem SRef._ref hv
      simp [h1, h2, hmem]
    · have hmem : item._id ∉ refIds value := by
        intro hm
        rcases List.mem_map.1 hm with ⟨v, hv, he⟩
        exact h2 (List.any_eq_true.2 ⟨v, hv, by simp [he]⟩)
      simp [h1, h2, hmem]

theorem addSingle_nodup (value : List SRef) (item : SResult) (key : String)
    (h : noDupRefs value) : noDupRefs (addSingleReference value item key) := by
  rw [addSingle_split value item key]
  by_cases hc : item._id ≠ "" ∧ item._id ∉ refIds value
  · rw [if_pos hc]
    unfold noDupRefs
    rw [List.map_append]
    refine List.Nodup.append h (by simp) ?_
    intro x hx hx2
    have : x = item._id := by simpa using hx2
    exact hc.2 (this ▸ hx)
  · rw [if_neg hc]
    simpa using h

theorem runOpsAux_invariant (kg : Nat → String) : ∀ (ops : List AddOp) (n : Nat)
    (value : List SRef), noDupRefs value →
    noDupRefs (runOpsAux kg n value ops) ∧ ∃ t, runOpsAux kg n value ops = value ++ t := by
  intro ops
  induction ops with
  | nil => intro n value h; exact ⟨h, [], by simp [runOpsAux]⟩
  | cons op rest ih =>
      intro n value h
      have hstep : noDupRefs (opStep kg n value op).2 ∧
          ∃ s, (opStep kg n value op).2 = value ++ s := by
        cases op with
        | bulk items =>
            exact ⟨addAll_nodup kg n value items h, _, addAll_split kg n value items h⟩
        | single item =>
            exact ⟨addSingle_nodup value item (kg n) h, _, addSingle_split value item (kg n)⟩
      obtain ⟨hs, s, hsplit⟩ := hstep
      obtain ⟨hnd, t, ht⟩ := ih (opStep kg n value op).1 (opStep kg n value op).2 hs
      refine ⟨?_, s ++ t, ?_⟩
      · rw [show runOpsAux kg n value (op :: rest) =
              runOpsAux kg (opStep kg n value op).1 (opStep kg n value op).2 rest from rfl]
        exact hnd
      · rw [show runOpsAux kg n value (op :: rest) =
              runOpsAux kg (opStep kg n value op).1 (opStep kg n value op).2 rest from rfl]
        rw [ht, hsplit, List.append_assoc]

/-- c1 (amended): starting from a reference list whose `_ref` ids are
pairwise distinct, any sequence of add operations keeps the ids
pairwise distinct and leaves the pre-existing entries unchanged as a
prefix; a bulk add appends exactly the supplied ids, in supplied order,
minus those already present or repeated, and a single add appends the
supplied id when new. -/
theorem c1_add_invariants (kg : Nat → String) (value : List SRef) (ops : List AddOp)
    (h : noDupRefs value) :
    noDupRefs (runOps kg value ops) ∧ (∃ t, runOps kg value ops = value ++ t) ∧
    (∀ (n : Nat) (items : List SResult),
        refIds (addAllReferences kg n value items) =
          refIds value ++ newIds (refIds value) (items.map SResult._id)) ∧
    (∀ (item : SResult) (key : String),
        refIds (addSingleReference value item key) =
          refIds value ++
            (if item._id ≠ "" ∧ item._id ∉ refIds value then [item._id] else [])) := by
  obtain ⟨h1, h2⟩ := runOpsAux_invariant kg ops 0 value h
  refine ⟨h1, h2, ?_, ?_⟩
  · intro n items
    rw [addAll_split kg n value items h]
    unfold newIds
    rw [show refIds (value ++ dedupGo (refIds value) (mkNewRefs kg n items)) =
          refIds value ++ refIds (dedupGo (refIds value) (mkNewRefs kg n items)) from by
        simp [refIds]]
    rw [refIds_dedupGo, refIds_mkNewRefs]
  · intro item key
    rw [addSingle_split value item key]
    rw [show refIds (value ++ (if item._id ≠ "" ∧ item._id ∉ refIds value
            then [(⟨"reference", key, item._id, true⟩ : SRef)] else [])) =
          refIds value ++ refIds (if item._id ≠ "" ∧ item._id ∉ refIds value
            then [(⟨"reference", key, item._id, true⟩ : SRef)] else []) from by
        simp [refIds]]
    congr 1
    split
    · rfl
    · rfl

/-- Witness for `c1_add_invariants` at a duplicate-free starting list. -/
theorem c1_add_invariants_witness :
    noDupRefs (runOps kgw [refP1] [AddOp.single itemB]) ∧
    refIds (addAllReferences kgw 0 [refP1] [itemB]) =
      refIds [refP1] ++ newIds (refIds [refP1]) ([itemB].map SResult._id) :=
  ⟨(c1_add_invariants kgw [refP1] [AddOp.single itemB] (by decide)).1,
   (c1_add_invariants kgw [refP1] [AddOp.single itemB] (by decide)).2.2.1 0 [itemB]⟩

/-! ### The direction toggle refines the spec comparators -/

theorem cmpVal_one (lc : String → String → Int) (a b : JVal) :
    cmpVal lc 1 a b = specAscVal lc a b := by
  unfold cmpVal specAscVal
  cases a <;> cases b <;> simp

theorem cmpVal_neg_one (lc : String → String → Int) (a b : JVal) :
    cmpVal lc (-1) a b = specDescVal lc a b := by
  unfold cmpVal specDescVal specAscVal
  cases a <;> cases b
  all_goals try rfl
  all_goals try simp
  all_goals (split <;> (try simp) <;> (try (split <;> simp)))

theorem cmpDocs_one (lc : String → String → Int) (f : String) :
    cmpDocs lc 1 f = specAscCmp lc f := by
  funext a b
  exact cmpVal_one lc (getField a f) (getField b f)

theorem cmpDocs_neg_one (lc : String → String → Int) (f : String) :
    cmpDocs lc (-1) f = specDescCmp lc f := by
  funext a b
  exact cmpVal_neg_one lc (getField a f) (getField b f)

/-- c3: with a non-empty array, a selected field and the already-sorted
flag freshly derived by `checkAlreadySorted`, invoking the sort commits
the descending permutation when the flag reports the list ascending,
and the ascending permutation otherwise — a two-state toggle decided
solely by the derived flag. -/
theorem c3_sort_toggle (lc : String → String → Int) (f : String) (value : List SRef)
    (docs : List SDoc) (flag : Bool) (h1 : ¬ value.isEmpty) (h2 : f ≠ "")
    (hflag : checkAlreadySorted lc f docs = some flag) :
    sortAllReferences lc f value docs flag =
      SortOutcome.commit (organize value
        (sortCmp (if flag then specDescCmp lc f else specAscCmp lc f) docs)) := by
  have hd : ¬ docs.isEmpty = true := by
    intro hc
    rw [checkAlreadySorted, if_pos hc] at hflag
    exact Option.noConfusion hflag
  unfold sortAllReferences
  rw [if_neg (show ¬ (value.isEmpty = true ∨ f = "") from by
        intro hc
        rcases hc with hc | hc
        · exact h1 hc
        · exact h2 hc)]
  rw [if_neg hd]
  cases flag
  · rw [if_neg (by simp), if_neg (by simp), cmpDocs_one]
  · rw [if_pos rfl, if_pos rfl, cmpDocs_neg_one]

/-- Witness for `c3_sort_toggle`: the ascending list [b:10, a:30] with a
derived `true` flag commits the descending permutation. -/
theorem c3_sort_toggle_witness :
    sortAllReferences lcZero priceField [refB, refA] [docB, docA] true =
      SortOutcome.commit (organize [refB, refA]
        (sortCmp (if true then specDescCmp lcZero priceField
                  else specAscCmp lcZero priceField) [docB, docA])) :=
  c3_sort_toggle lcZero priceField [refB, refA] [docB, docA] true (by decide) (by decide)
    (by decide)

/-! ### Stable-sort lemmas for the toggle round trip -/

theorem mem_insertCmp (cmp : α → α → Int) (x : α) :
    ∀ (l : List α) (y : α), y ∈ insertCmp cmp x l ↔ y = x ∨ y ∈ l := by
  intro l
  induction l with
  | nil => intro y; simp [insertCmp]
  | cons a l' ih =>
      intro y
      unfold insertCmp
      split
      · simp
      · rw [List.mem_cons, ih y, List.mem_cons]
        tauto

theorem mem_sortCmp (cmp : α → α → Int) :
    ∀ (l : List α) (y : α), y ∈ sortCmp cmp l ↔ y ∈ l := by
  intro l
  induction l with
  | nil => intro y; simp [sortCmp]
  | cons a l' ih =>
      intro y
      rw [show sortCmp cmp (a :: l') = insertCmp cmp a (sortCmp cmp l') from rfl]
      rw [mem_insertCmp, ih, List.mem_cons]

theorem insertCmp_perm (cmp : α → α → Int) (x : α) :
    ∀ l : List α, (insertCmp cmp x l).Perm (x :: l) := by
  intro l
  induction l with
  | nil => simp [insertCmp]
  | cons a l' ih =>
      unfold insertCmp
      split
      · exact List.Perm.refl _
      · exact (ih.cons a).trans (List.Perm.swap x a l')

theorem sortCmp_perm (cmp : α → α → Int) :
    ∀ l : List α, (sortCmp cmp l).Perm l := by
  intro l
  induction l with
  | nil => exact List.Perm.refl _
  | cons a l' ih =>
      rw [show sortCmp cmp (a :: l') = insertCmp cmp a (sortCmp cmp l') from rfl]
      exact (insertCmp_perm cmp a (sortCmp cmp l')).trans (ih.cons a)

theorem insertCmp_comm (p : α → α → Int) (S : α → Prop)
    (hpa : ∀ a b, S a → S b → p b a = -(p a b))
    (hpt : ∀ a b c, S a → S b → S c → p a b ≤ 0 → p b c ≤ 0 → p a c ≤ 0)
    (x y : α) (hx : S x) (hy : S y) (hne : p x y ≠ 0) :
    ∀ N : List α, (∀ z ∈ N, S z) →
      insertCmp p x (insertCmp p y N) = insertCmp p y (insertCmp p x N) := by
  intro N
  induction N with
  | nil =>
      intro _
      show insertCmp p x [y] = insertCmp p y [x]
      have hxy := hpa x y hx hy
      by_cases h : p x y ≤ 0
      · have h2 : ¬ p y x ≤ 0 := by omega
        simp [insertCmp, h, h2]
      · have h2 : p y x ≤ 0 := by omega
        simp [insertCmp, h, h2]
  | cons z N' ih =>
      intro hN
      have hz : S z := hN z (by simp)
      have hN' : ∀ w ∈ N', S w := fun w hw => hN w (by simp [hw])
      have hxy := hpa x y hx hy
      by_cases hyz : p y z ≤ 0 <;> by_cases hxz : p x z ≤ 0
      · by_cases hxy2 : p x y ≤ 0
        · have hyx : ¬ p y x ≤ 0 := by omega
          simp [insertCmp, hyz, hxz, hxy2, hyx]
        · have hyx : p y x ≤ 0 := by omega
          simp [insertCmp, hyz, hxz, hxy2, hyx]
      · have hxy2 : ¬ p x y ≤ 0 := fun hle => hxz (hpt x y z hx hy hz hle hyz)
        have hyx : p y x ≤ 0 := by omega
        simp [insertCmp, hyz, hxz, hxy2, hyx]
      · have hyx : ¬ p y x ≤ 0 := fun hle => hyz (hpt y x z hy hx hz hle hxz)
        have hxy2 : p x y ≤ 0 := by omega
        simp [insertCmp, hyz, hxz, hxy2, hyx]
      · simp [insertCmp, hyz, hxz, ih hN']

theorem sortCmp_insertCmp (p q : α → α → Int) (S : α → Prop)
    (hpa : ∀ a b, S a → S b → p b a = -(p a b))
    (hpt : ∀ a b c, S a → S b → S c → p a b ≤ 0 → p b c ≤ 0 → p a c ≤ 0)
    (htie : ∀ a b, S a → S b → (p a b = 0 ↔ q a b = 0))
    (x : α) (hx : S x) :
    ∀ M : List α, (∀ z ∈ M, S z) →
      sortCmp p (insertCmp q x M) = sortCmp p (x :: M) := by
  intro M
  induction M with
  | nil => intro _; rfl
  | cons y M' ih =>
      intro hM
      have hy : S y := hM y (by simp)
      have hM' : ∀ w ∈ M', S w := fun w hw => hM w (by simp [hw])
      have hstep : insertCmp q x (y :: M') =
          if q x y ≤ 0 then x :: y :: M' else y :: insertCmp q x M' := rfl
      by_cases hq : q x y ≤ 0
      · rw [hstep, if_pos hq]
      · have hq0 : q x y ≠ 0 := by omega
        have hp0 : p x y ≠ 0 := fun h => hq0 ((htie x y hx hy).1 h)
        have hp0' : p y x ≠ 0 := by
          have := hpa x y hx hy
          omega
        rw [hstep, if_neg hq]
        rw [show sortCmp p (y :: insertCmp q x M') =
              insertCmp p y (sortCmp p (insertCmp q x M')) from rfl]
        rw [ih hM']
        rw [show sortCmp p (x :: M') = insertCmp p x (sortCmp p M') from rfl]
        rw [show sortCmp p (x :: y :: M') =
              insertCmp p x (insertCmp p y (sortCmp p M')) from rfl]
        exact insertCmp_comm p S hpa hpt y x hy hx hp0' (sortCmp p M')
          (fun w hw => hM' w ((mem_sortCmp p M' w).1 hw))

theorem sortCmp_sortCmp (p q : α → α → Int) (S : α → Prop)
    (hpa : ∀ a b, S a → S b → p b a = -(p a b))
    (hpt : ∀ a b c, S a → S b → S c → p a b ≤ 0 → p b c ≤ 0 → p a c ≤ 0)
    (htie : ∀ a b, S a → S b → (p a b = 0 ↔ q a b = 0)) :
    ∀ L : List α, (∀ z ∈ L, S z) → sortCmp p (sortCmp q L) = sortCmp p L := by
  intro L
  induction L with
  | nil => intro _; rfl
  | cons x L' ih =>
      intro hL
      have hx : S x := hL x (by simp)
      have hL' : ∀ w ∈ L', S w := fun w hw => hL w (by simp [hw])
      rw [show sortCmp q (x :: L') = insertCmp q x (sortCmp q L') from rfl]
      rw [sortCmp_insertCmp p q S hpa hpt htie x hx (sortCmp q L')
            (fun w hw => hL' w ((mem_sortCmp q L' w).1 hw))]
      rw [show sortCmp p (x :: sortCmp q L') =
            insertCmp p x (sortCmp p (sortCmp q L')) from rfl]
      rw [ih hL']
      rfl

/-! ### The sort comparator is a total preorder when the locale
comparator is consistent and the compared data avoids NaN-producing
mixed-type comparisons -/

theorem specAscVal_antisym (lc : String → String → Int)
    (hlc : ∀ x y : String, lc y x = -(lc x y)) :
    ∀ u v : JVal, specAscVal lc v u = -(specAscVal lc u v) := by
  intro u v
  cases u with
  | jnull => cases v <;> simp [specAscVal]
  | jnum m =>
      cases v with
      | jnull => simp [specAscVal]
      | jnum k =>
          simp [specAscVal, jsLt, jsToNum]
          split_ifs <;> omega
      | jstr s =>
          cases hs : strToNumber s <;>
            simp [specAscVal, jsLt, jsToNum, hs] <;> split_ifs <;> omega
  | jstr t =>
      cases v with
      | jnull => simp [specAscVal]
      | jnum k =>
          cases hs : strToNumber t <;>
            simp [specAscVal, jsLt, jsToNum, hs] <;> split_ifs <;> omega
      | jstr s =>
          simp [specAscVal, hlc t s]

theorem specDescVal_antisym (lc : String → String → Int)
    (hlc : ∀ x y : String, lc y x = -(lc x y)) :
    ∀ u v : JVal, specDescVal lc v u = -(specDescVal lc u v) := by
  intro u v
  by_cases hu : u = JVal.jnull <;> by_cases hv : v = JVal.jnull <;>
    simp [specDescVal, hu, hv]
  rw [specAscVal_antisym lc hlc u v]
  omega

theorem specVal_tie (lc : String → String → Int) :
    ∀ u v : JVal, (specAscVal lc u v = 0 ↔ specDescVal lc u v = 0) := by
  intro u v
  by_cases hu : u = JVal.jnull <;> by_cases hv : v = JVal.jnull <;>
    simp [specAscVal, specDescVal, hu, hv]

theorem specDescVal_trans_of (lc : String → String → Int) (u v w : JVal)
    (hanti_uv : specAscVal lc v u = -(specAscVal lc u v))
    (hanti_vw : specAscVal lc w v = -(specAscVal lc v w))
    (hanti_uw : specAscVal lc w u = -(specAscVal lc u w))
    (ht : specAscVal lc w v ≤ 0 → specAscVal lc v u ≤ 0 → specAscVal lc w u ≤ 0)
    (h1 : specDescVal lc u v ≤ 0) (h2 : specDescVal lc v w ≤ 0) :
    specDescVal lc u w ≤ 0 := by
  by_cases hw : w = JVal.jnull
  · by_cases hu : u = JVal.jnull <;> simp [specDescVal, hu, hw]
  · have hv : v ≠ JVal.jnull := by
      intro he
      rw [he] at h2
      simp [specDescVal, hw] at h2
    have hu : u ≠ JVal.jnull := by
      intro he
      rw [he] at h1
      simp [specDescVal, hv] at h1
    have e1 : specDescVal lc u v = -(specAscVal lc u v) := by simp [specDescVal, hu, hv]
    have e2 : specDescVal lc v w = -(specAscVal lc v w) := by simp [specDescVal, hv, hw]
    have e3 : specDescVal lc u w = -(specAscVal lc u w) := by simp [specDescVal, hu, hw]
    rw [e1] at h1
    rw [e2] at h2
    rw [e3]
    have g1 : specAscVal lc w v ≤ 0 := by rw [hanti_vw]; omega
    have g2 : specAscVal lc v u ≤ 0 := by rw [hanti_uv]; omega
    have g3 := ht g1 g2
    rw [hanti_uw] at g3
    omega

theorem cmpAsc_antisym (lc : String → String → Int) (f : String)
    (hlc : ∀ x y : String, lc y x = -(lc x y)) (a b : SDoc) :
    cmpDocs lc 1 f b a = -(cmpDocs lc 1 f a b) := by
  show cmpVal lc 1 (getField b f) (getField a f) =
    -(cmpVal lc 1 (getField a f) (getField b f))
  rw [cmpVal_one, cmpVal_one]
  exact specAscVal_antisym lc hlc (getField a f) (getField b f)

theorem cmpDesc_antisym (lc : String → String → Int) (f : String)
    (hlc : ∀ x y : String, lc y x = -(lc x y)) (a b : SDoc) :
    cmpDocs lc (-1) f b a = -(cmpDocs lc (-1) f a b) := by
  show cmpVal lc (-1) (getField b f) (getField a f) =
    -(cmpVal lc (-1) (getField a f) (getField b f))
  rw [cmpVal_neg_one, cmpVal_neg_one]
  exact specDescVal_antisym lc hlc (getField a f) (getField b f)

theorem cmp_tie (lc : String → String → Int) (f : String) (a b : SDoc) :
    cmpDocs lc 1 f a b = 0 ↔ cmpDocs lc (-1) f a b = 0 := by
  show cmpVal lc 1 (getField a f) (getField b f) = 0 ↔
    cmpVal lc (-1) (getField a f) (getField b f) = 0
  rw [cmpVal_one, cmpVal_neg_one]
  exact specVal_tie lc (getField a f) (getField b f)

theorem cmpDesc_trans_on (lc : String → String → Int) (f : String)
    (hlc : ∀ x y : String, lc y x = -(lc x y)) (l : List SDoc)
    (ht : ∀ a ∈ l, ∀ b ∈ l, ∀ c ∈ l,
        cmpDocs lc 1 f a b ≤ 0 → cmpDocs lc 1 f b c ≤ 0 → cmpDocs lc 1 f a c ≤ 0) :
    ∀ a ∈ l, ∀ b ∈ l, ∀ c ∈ l,
        cmpDocs lc (-1) f a b ≤ 0 → cmpDocs lc (-1) f b c ≤ 0 →
          cmpDocs lc (-1) f a c ≤ 0 := by
  intro a ha b hb c hc h1 h2
  have e : ∀ u v : SDoc, cmpDocs lc 1 f u v = specAscVal lc (getField u f) (getField v f) :=
    fun u v => cmpVal_one lc (getField u f) (getField v f)
  have e2 : ∀ u v : SDoc,
      cmpDocs lc (-1) f u v = specDescVal lc (getField u f) (getField v f) :=
    fun u v => cmpVal_neg_one lc (getField u f) (getField v f)
  rw [e2] at h1 h2 ⊢
  refine specDescVal_trans_of lc (getField a f) (getField b f) (getField c f)
      (specAscVal_antisym lc hlc _ _) (specAscVal_antisym lc hlc _ _)
      (specAscVal_antisym lc hlc _ _) ?_ h1 h2
  intro g1 g2
  have h3 := ht c hc b hb a ha (by rw [e]; exact g1) (by rw [e]; exact g2)
  rw [e] at h3
  exact h3

/-! ### Rebuilding the reference array from sorted documents -/

theorem findRefLast_none : ∀ (refs : List SRef) (i : String),
    i ∉ refIds refs → findRefLast refs i = none := by
  intro refs
  induction refs with
  | nil => intro i _; rfl
  | cons a rest ih =>
      intro i hi
      have h1 : ¬ a._ref = i := fun he => hi (by simp [refIds_cons, he])
      have h2 : i ∉ refIds rest := fun hm => hi (by simp [refIds_cons, hm])
      unfold findRefLast
      rw [ih i h2]
      simp [h1]

theorem noDupRefs_tail (a : SRef) (rest : List SRef) (h : noDupRefs (a :: rest)) :
    noDupRefs rest := by
  unfold noDupRefs at h ⊢
  rw [show (a :: rest).map SRef._ref = a._ref :: rest.map SRef._ref from rfl] at h
  exact (List.nodup_cons.1 h).2

theorem noDupRefs_head (a : SRef) (rest : List SRef) (h : noDupRefs (a :: rest)) :
    a._ref ∉ refIds rest := by
  unfold noDupRefs at h
  rw [show (a :: rest).map SRef._ref = a._ref :: rest.map SRef._ref from rfl] at h
  exact (List.nodup_cons.1 h).1

theorem findRefLast_eq : ∀ (refs : List SRef), noDupRefs refs →
    ∀ r ∈ refs, findRefLast refs r._ref = some r := by
  intro refs
  induction refs with
  | nil => intro _ r hr; cases hr
  | cons a rest ih =>
      intro hnd r hr
      rcases List.mem_cons.1 hr with he | hm
      · subst he
        unfold findRefLast
        rw [findRefLast_none rest r._ref (noDupRefs_head r rest hnd)]
        simp
      · unfold findRefLast
        rw [ih (noDupRefs_tail a rest hnd) r hm]

theorem findRefLast_mem : ∀ (refs : List SRef) (i : String) (r : SRef),
    findRefLast refs i = some r → r ∈ refs ∧ r._ref = i := by
  intro refs
  induction refs with
  | nil => intro i r h; exact Option.noConfusion h
  | cons a rest ih =>
      intro i r h
      unfold findRefLast at h
      cases hf : findRefLast rest i with
      | some x =>
          rw [hf] at h
          have hx : x = r := Option.some.inj h
          obtain ⟨hm, he⟩ := ih i r (hx ▸ hf)
          exact ⟨List.mem_cons_of_mem a hm, he⟩
      | none =>
          rw [hf] at h
          by_cases hc : a._ref == i
          · rw [if_pos hc] at h
            have ha : a = r := Option.some.inj h
            refine ⟨ha ▸ List.mem_cons_self a rest, ?_⟩
            rw [← ha]
            exact eq_of_beq hc
          · rw [if_neg hc] at h
            exact Option.noConfusion h

theorem mem_organize (refs : List SRef) (M : List SDoc) (r : SRef) (d : SDoc)
    (hd : d ∈ M) (hfind : findRefLast refs d._id = some r) : r ∈ organize refs M := by
  unfold organize
  exact List.mem_filterMap.2 ⟨d, hd, hfind⟩

theorem organize_shape (docOf : String → SDoc) (refs : List SRef)
    (hnd : noDupRefs refs) (hid : ∀ r ∈ refs, (docOf r._ref)._id = r._ref) :
    ∀ M : List SDoc, (∀ d ∈ M, ∃ r ∈ refs, d = docOf r._ref) →
      deref docOf (organize refs M) = M ∧
      refIds (organize refs M) = M.map SDoc._id ∧
      ∀ x ∈ organize refs M, x ∈ refs := by
  intro M
  induction M with
  | nil =>
      intro _
      exact ⟨rfl, rfl, by intro x hx; cases hx⟩
  | cons d M' ihM =>
      intro hM
      obtain ⟨r0, hr0, hd⟩ := hM d (by simp)
      have hdid : d._id = r0._ref := by rw [hd]; exact hid r0 hr0
      have hfind : findRefLast refs d._id = some r0 := by
        rw [hdid]
        exact findRefLast_eq refs hnd r0 hr0
      have horg : organize refs (d :: M') = r0 :: organize refs M' := by
        unfold organize
        rw [List.filterMap_cons, hfind]
      obtain ⟨ih1, ih2, ih3⟩ := ihM (fun e he => hM e (by simp [he]))
      refine ⟨?_, ?_, ?_⟩
      · rw [horg]
        show docOf r0._ref :: deref docOf (organize refs M') = d :: M'
        rw [ih1, ← hd]
      · rw [horg, refIds_cons, ih2, List.map_cons, hdid]
      · intro x hx
        rw [horg] at hx
        rcases List.mem_cons.1 hx with he | hm
        · exact he ▸ hr0
        · exact ih3 x hm

theorem organize_deref_self (docOf : String → SDoc) (base : List SRef)
    (hndB : noDupRefs base) :
    ∀ L : List SRef, (∀ r ∈ L, r ∈ base) → (∀ r ∈ L, (docOf r._ref)._id = r._ref) →
      organize base (deref docOf L) = L := by
  intro L
  induction L with
  | nil => intro _ _; rfl
  | cons r L' ihL =>
      intro hsub hidL
      have hfind : findRefLast base (docOf r._ref)._id = some r := by
        rw [hidL r (by simp)]
        exact findRefLast_eq base hndB r (hsub r (by simp))
      show organize base (docOf r._ref :: deref docOf L') = r :: L'
      unfold organize
      rw [List.filterMap_cons, hfind]
      rw [show List.filterMap (fun d => findRefLast base d._id) (deref docOf L') =
            organize base (deref docOf L') from rfl]
      rw [ihL (fun x hx => hsub x (by simp [hx])) (fun x hx => hidL x (by simp [hx]))]

theorem deref_isEmpty_false (docOf : String → SDoc) (refs : List SRef)
    (hne : ¬ refs.isEmpty = true) : (deref docOf refs).isEmpty = false := by
  unfold deref
  cases refs
  · simp at hne
  · rfl

theorem sortStep_eq_asc (lc : String → String → Int) (f : String) (docOf : String → SDoc)
    (refs : List SRef) (hne : ¬ refs.isEmpty = true) (hf : f ≠ "")
    (hA : ¬ sortCmp (cmpDocs lc 1 f) (deref docOf refs) = deref docOf refs) :
    sortStep lc f docOf refs =
      organize refs (sortCmp (cmpDocs lc 1 f) (deref docOf refs)) := by
  unfold sortStep checkAlreadySorted sortAllReferences
  simp [deref_isEmpty_false docOf refs hne, hne, hf, hA]

theorem sortStep_eq_desc (lc : String → String → Int) (f : String) (docOf : String → SDoc)
    (refs : List SRef) (hne : ¬ refs.isEmpty = true) (hf : f ≠ "")
    (hA : sortCmp (cmpDocs lc 1 f) (deref docOf refs) = deref docOf refs) :
    sortStep lc f docOf refs =
      organize refs (sortCmp (cmpDocs lc (-1) f) (deref docOf refs)) := by
  unfold sortStep checkAlreadySorted sortAllReferences
  simp [deref_isEmpty_false docOf refs hne, hne, hf, hA]

theorem map_congr_mem (f g : α → β) :
    ∀ l : List α, (∀ a ∈ l, f a = g a) → l.map f = l.map g := by
  intro l
  induction l with
  | nil => intro _; rfl
  | cons a l' ih =>
      intro h
      rw [List.map_cons, List.map_cons, h a (by simp), ih (fun x hx => h x (by simp [hx]))]

/-- c5 (amended): applying the sort operation twice in succession, with
the referenced documents unchanged between the two invocations, returns
the reference list to the order it had before the first invocation,
provided the list is initially already the ascending or the descending
permutation of the selected field.  The locale comparator is assumed
sign-consistent and the ascending comparator transitive on the fetched
documents — true of the real `localeCompare`, and satisfied by numeric,
string or null field values (only NaN-producing mixed-type comparisons
violate it); an initially unsorted list does not round-trip
(`c5_counterexample`). -/
theorem c5_sort_round_trip (lc : String → String → Int) (f : String)
    (docOf : String → SDoc) (refs : List SRef)
    (hne : ¬ refs.isEmpty = true) (hf : f ≠ "") (hnd : noDupRefs refs)
    (hid : ∀ r ∈ refs, (docOf r._ref)._id = r._ref)
    (hlc : ∀ x y : String, lc y x = -(lc x y))
    (htrans : ∀ a ∈ deref docOf refs, ∀ b ∈ deref docOf refs, ∀ c ∈ deref docOf refs,
        cmpDocs lc 1 f a b ≤ 0 → cmpDocs lc 1 f b c ≤ 0 → cmpDocs lc 1 f a c ≤ 0)
    (hsorted : sortCmp (cmpDocs lc 1 f) (deref docOf refs) = deref docOf refs ∨
        sortCmp (cmpDocs lc (-1) f) (deref docOf refs) = deref docOf refs) :
    sortStep lc f docOf (sortStep lc f docOf refs) = refs := by
  have hMdocs : ∀ d ∈ deref docOf refs, ∃ r ∈ refs, d = docOf r._ref := by
    intro d hd
    rcases List.mem_map.1 hd with ⟨r, hr, he⟩
    exact ⟨r, hr, he.symm⟩
  have commAD : sortCmp (cmpDocs lc 1 f)
        (sortCmp (cmpDocs lc (-1) f) (deref docOf refs)) =
      sortCmp (cmpDocs lc 1 f) (deref docOf refs) :=
    sortCmp_sortCmp (cmpDocs lc 1 f) (cmpDocs lc (-1) f)
      (fun d => d ∈ deref docOf refs)
      (fun a b _ _ => cmpAsc_antisym lc f hlc a b)
      (fun a b c ha hb hc => htrans a ha b hb c hc)
      (fun a b _ _ => cmp_tie lc f a b)
      (deref docOf refs) (fun _ hz => hz)
  have commAA : sortCmp (cmpDocs lc 1 f)
        (sortCmp (cmpDocs lc 1 f) (deref docOf refs)) =
      sortCmp (cmpDocs lc 1 f) (deref docOf refs) :=
    sortCmp_sortCmp (cmpDocs lc 1 f) (cmpDocs lc 1 f)
      (fun d => d ∈ deref docOf refs)
      (fun a b _ _ => cmpAsc_antisym lc f hlc a b)
      (fun a b c ha hb hc => htrans a ha b hb c hc)
      (fun _ _ _ _ => Iff.rfl)
      (deref docOf refs) (fun _ hz => hz)
  have commDA : sortCmp (cmpDocs lc (-1) f)
        (sortCmp (cmpDocs lc 1 f) (deref docOf refs)) =
      sortCmp (cmpDocs lc (-1) f) (deref docOf refs) :=
    sortCmp_sortCmp (cmpDocs lc (-1) f) (cmpDocs lc 1 f)
      (fun d => d ∈ deref docOf refs)
      (fun a b _ _ => cmpDesc_antisym lc f hlc a b)
      (fun a b c ha hb hc => cmpDesc_trans_on lc f hlc (deref docOf refs) htrans a ha b hb c hc)
      (fun a b _ _ => (cmp_tie lc f a b).symm)
      (deref docOf refs) (fun _ hz => hz)
  have midfacts : ∀ M1 : List SDoc, M1.Perm (deref docOf refs) →
      (∀ d ∈ M1, d ∈ deref docOf refs) →
      deref docOf (organize refs M1) = M1 ∧
      noDupRefs (organize refs M1) ∧
      ¬ (organize refs M1).isEmpty = true ∧
      (∀ r ∈ refs, r ∈ organize refs M1) := by
    intro M1 hperm hmem
    have hM : ∀ d ∈ M1, ∃ r ∈ refs, d = docOf r._ref := fun d hd => hMdocs d (hmem d hd)
    obtain ⟨hder, hids, _⟩ := organize_shape docOf refs hnd hid M1 hM
    have hidmap : (deref docOf refs).map SDoc._id = refIds refs := by
      unfold deref refIds
      rw [List.map_map]
      exact map_congr_mem _ _ refs (fun r hr => hid r hr)
    have hndids : (M1.map SDoc._id).Nodup := by
      have hpm : (M1.map SDoc._id).Perm ((deref docOf refs).map SDoc._id) := hperm.map _
      rw [hidmap] at hpm
      exact hpm.nodup_iff.2 hnd
    have hnd1 : noDupRefs (organize refs M1) := by
      unfold noDupRefs
      rw [show (organize refs M1).map SRef._ref = refIds (organize refs M1) from rfl, hids]
      exact hndids
    have hrefslen : 0 < refs.length := by
      cases refs
      · simp at hne
      · simp
    have hlen : (organize refs M1).length = M1.length := by
      have h0 := congrArg List.length hder
      simpa [deref] using h0
    have hm1len : M1.length = refs.length := by
      rw [hperm.length_eq]
      simp [deref]
    have hne1 : ¬ (organize refs M1).isEmpty = true := by
      intro hc
      rw [List.isEmpty_iff] at hc
      rw [hc] at hlen
      simp at hlen
      omega
    have hsup : ∀ r ∈ refs, r ∈ organize refs M1 := by
      intro r hr
      have hdmem : docOf r._ref ∈ M1 := by
        have hmm : docOf r._ref ∈ deref docOf refs := List.mem_map_of_mem _ hr
        exact hperm.mem_iff.2 hmm
      refine mem_organize refs M1 r (docOf r._ref) hdmem ?_
      rw [hid r hr]
      exact findRefLast_eq refs hnd r hr
    exact ⟨hder, hnd1, hne1, hsup⟩
  by_cases hA : sortCmp (cmpDocs lc 1 f) (deref docOf refs) = deref docOf refs
  · rw [sortStep_eq_desc lc f docOf refs hne hf hA]
    obtain ⟨hder, hnd1, hne1, hsup⟩ := midfacts
        (sortCmp (cmpDocs lc (-1) f) (deref docOf refs))
        (sortCmp_perm _ _)
        (fun d hd => (mem_sortCmp _ _ d).1 hd)
    have hAM1 : sortCmp (cmpDocs lc 1 f)
        (sortCmp (cmpDocs lc (-1) f) (deref docOf refs)) = deref docOf refs :=
      commAD.trans hA
    by_cases h2 : sortCmp (cmpDocs lc 1 f)
        (sortCmp (cmpDocs lc (-1) f) (deref docOf refs)) =
        sortCmp (cmpDocs lc (-1) f) (deref docOf refs)
    · have hM1eq : sortCmp (cmpDocs lc (-1) f) (deref docOf refs) = deref docOf refs :=
        h2.symm.trans hAM1
      have hrefs1 : organize refs (sortCmp (cmpDocs lc (-1) f) (deref docOf refs)) = refs := by
        rw [hM1eq]
        exact organize_deref_self docOf refs hnd refs (fun r hr => hr) hid
      rw [hrefs1, sortStep_eq_desc lc f docOf refs hne hf hA, hM1eq]
      exact organize_deref_self docOf refs hnd refs (fun r hr => hr) hid
    · rw [sortStep_eq_asc lc f docOf _ hne1 hf (by rw [hder]; exact h2)]
      rw [hder, hAM1]
      exact organize_deref_self docOf _ hnd1 refs hsup hid
  · rcases hsorted with hs | hD
    · exact absurd hs hA
    · rw [sortStep_eq_asc lc f docOf refs hne hf hA]
      obtain ⟨hder, hnd1, hne1, hsup⟩ := midfacts
          (sortCmp (cmpDocs lc 1 f) (deref docOf refs))
          (sortCmp_perm _ _)
          (fun d hd => (mem_sortCmp _ _ d).1 hd)
      rw [sortStep_eq_desc lc f docOf _ hne1 hf (by rw [hder]; exact commAA)]
      rw [hder]
      have hinner : sortCmp (cmpDocs lc (-1) f)
          (sortCmp (cmpDocs lc 1 f) (deref docOf refs)) = deref docOf refs :=
        commDA.trans hD
      rw [hinner]
      exact organize_deref_self docOf _ hnd1 refs hsup hid

/-- Witness for `c5_sort_round_trip`: the descending list [a:30, d:20,
b:10] sorts to ascending and back to its original descending order. -/
theorem c5_sort_round_trip_witness :
    sortStep lcZero priceField docOf0 (sortStep lcZero priceField docOf0 [refA, refD, refB]) =
      [refA, refD, refB] :=
  c5_sort_round_trip lcZero priceField docOf0 [refA, refD, refB]
    (by decide) (by decide) (by decide) (by decide)
    (fun _ _ => rfl) (by decide) (Or.inr (by decide))
